import Mathlib

/-!
# Verification of the `pyrawsql` QueryContext

Shallow embedding of `src/pyrawsql/__init__.py`: a `QueryContext` holding an
alias set, a type-bucketed bind-value registry with identity-based
deduplication, a monotone bind counter, and an insertion-ordered mapping from
minted keys to `BindParameter` records.

Modelling conventions:
* A Python object is modelled by a `Value` record.  The `ref` field is the
  object's identity (its address / `id()`), so two references denote the same
  Python object exactly when their `Value` records are equal: distinct objects
  always carry distinct `ref`s, and an object determines its runtime type
  (`ty`) and payload (`data`).  Hence Python's `is` comparison is equality of
  `Value` records, while mere value equality of two distinct objects is
  (at most) agreement of the `ty`/`data` fields with different `ref`s.
* Python's insertion-ordered `dict` is modelled by an association list with
  first-match lookup (`dictGet`) and in-place update / append (`dictSet`).
* Python's `set[str]` is modelled by a duplicate-free list: `addAlias` inserts
  only when absent, so `List.length` agrees with `len` on every reachable
  state.
* sqlalchemy's `bindparam` constructor is an external collaborator; the core
  only builds and stores the record, so it is modelled as an opaque record
  constructor `sqlalchemy.bindparam` combining the key, the value and the
  pass-through configuration bundle.
-/

/-- A Python object: `ref` is its identity (address), `ty` the tag of its
runtime type (`type(value)`), `data` its payload (used only by value
equality, which the registry deliberately does not use). -/
structure Value where
  ref : Nat
  ty : Nat
  data : Nat
deriving DecidableEq, Repr

/-- The pass-through configuration bundle of `QueryContext.bindparam`:
`type_`, `unique`, `required`, `quote`, `callable_`, `expanding`,
`isoutparam`, `literal_execute`.  `required = none` models the `_NoArg.NO_ARG`
sentinel, `type_`/`callable_` are opaque handles. -/
structure BindConfig where
  type_ : Option Nat
  unique : Bool
  required : Option Bool
  quote : Option Bool
  callable_ : Option Nat
  expanding : Bool
  isoutparam : Bool
  literal_execute : Bool
deriving DecidableEq, Repr

/-- The default argument bundle of `QueryContext.bindparam`
(`type_=None, unique=False, required=NO_ARG, quote=None, callable_=None,
expanding=False, isoutparam=False, literal_execute=False`). -/
def BindConfig.default : BindConfig :=
  ⟨none, false, none, none, none, false, false, false⟩

/-- A fully-configured sqlalchemy `BindParameter` record, as far as the core
observes it: the key, the bound value and the forwarded configuration. -/
structure BindParameter where
  key : String
  value : Value
  config : BindConfig
deriving DecidableEq, Repr

/-- sqlalchemy's `bindparam(key=..., value=..., ...)` constructor, the
external collaborator: the core hands the arguments over verbatim and never
inspects the result, so it is modelled as the record constructor. -/
def sqlalchemy.bindparam (key : String) (value : Value) (config : BindConfig) :
    BindParameter :=
  ⟨key, value, config⟩

/-- `d[k]` lookup on an insertion-ordered Python dict modelled as an
association list (first match wins). -/
def dictGet {α β : Type} [DecidableEq α] (k : α) : List (α × β) → Option β
  | [] => none
  | (k', v) :: rest => if k' = k then some v else dictGet k rest

/-- `d[k] = v` on an insertion-ordered Python dict: update in place when the
key is present (keeping its position), append otherwise. -/
def dictSet {α β : Type} [DecidableEq α] (k : α) (v : β) :
    List (α × β) → List (α × β)
  | [] => [(k, v)]
  | (k', v') :: rest =>
      if k' = k then (k, v) :: rest else (k', v') :: dictSet k v rest

/-- `s.add(x)` on a Python `set[str]` modelled as a duplicate-free list. -/
def addAlias (x : String) (s : List String) : List String :=
  if x ∈ s then s else s ++ [x]

/-- The state of `QueryContext`: `aliases` is `self._aliases`,
`binds_values` is `self._binds_values : dict[type, list[tuple[Any, str]]]`,
`binds_count` is `self._binds_count`, `binds` is
`self._binds : dict[str, BindParameter]`. -/
structure QueryContext where
  aliases : List String
  binds_values : List (Nat × List (Value × String))
  binds_count : Nat
  binds : List (String × BindParameter)
deriving DecidableEq, Repr

/-- `QueryContext.__init__`: empty alias set, empty registry, counter 0. -/
def QueryContext.init : QueryContext :=
  ⟨[], [], 0, []⟩

/-- The identity scan
`for bind_value, bind_key in type_group: if bind_value is value: return bind_key`.
`is` is equality of `Value` records (see the module docstring). -/
def scanGroup (value : Value) : List (Value × String) → Option String
  | [] => none
  | (bind_value, bind_key) :: rest =>
      if bind_value = value then some bind_key else scanGroup value rest

/-- The key minted for the `n`-th cache miss: `f"b{n}"`. -/
def mkKey (n : Nat) : String :=
  "b" ++ toString n

/-- `QueryContext.bindparam`.  The Python code first ensures the bucket for
`type(value)` exists (creating an empty one on a fresh type), scans it for an
entry whose value `is value`, returns the stored key on a hit, and otherwise
mints `f"b{self._binds_count}"`, increments the counter, appends the pair to
the bucket and stores the constructed `BindParameter` under the new key.
Scanning the freshly created empty bucket trivially fails, so both dict
branches are expressed by scanning `type_group = getD [] (dictGet ...)` and,
on a miss, writing back the extended bucket with `dictSet` (in-place update
when the type key existed, append of the new bucket otherwise — exactly the
net effect of the Python code). -/
def QueryContext.bindparam (ctx : QueryContext) (value : Value)
    (cfg : BindConfig) : String × QueryContext :=
  let type_group := (dictGet value.ty ctx.binds_values).getD []
  match scanGroup value type_group with
  | some bind_key => (bind_key, ctx)
  | none =>
      let key := "b" ++ toString ctx.binds_count
      (key,
        { ctx with
          binds_values :=
            dictSet value.ty (type_group ++ [(value, key)]) ctx.binds_values
          binds_count := ctx.binds_count + 1
          binds := dictSet key (sqlalchemy.bindparam key value cfg) ctx.binds })

/-- `QueryContext.get_bindparams`: `list(self._binds.values())`. -/
def QueryContext.get_bindparams (ctx : QueryContext) : List BindParameter :=
  ctx.binds.map Prod.snd

/-- `QueryContext.alias`: on a collision the candidate is suffixed with
`f"_{len(self._aliases)}"`, then the (possibly suffixed) name is added to the
set and returned. -/
def QueryContext.alias (ctx : QueryContext) (name : String) :
    String × QueryContext :=
  let name := if name ∈ ctx.aliases then
      name ++ "_" ++ toString ctx.aliases.length
    else name
  (name, { ctx with aliases := addAlias name ctx.aliases })

/-- One mutating call on a `QueryContext` during its lifetime
(`get_bindparams` is read-only and modelled as the pure function above). -/
inductive Op where
  | bind : Value → BindConfig → Op
  | alias : String → Op
deriving DecidableEq, Repr

/-- Apply one call, returning the string it hands back to the caller. -/
def applyOp (ctx : QueryContext) : Op → String × QueryContext
  | Op.bind v cfg => ctx.bindparam v cfg
  | Op.alias n => ctx.alias n

/-- Run a lifetime of calls, collecting the returned strings in order. -/
def runOps (ctx : QueryContext) : List Op → List String × QueryContext
  | [] => ([], ctx)
  | op :: rest =>
      let r := applyOp ctx op
      let rs := runOps r.2 rest
      (r.1 :: rs.1, rs.2)

/-- The key the registry would return for `value` without mutating anything:
the identity scan of `value`'s type bucket. -/
def keyOf (ctx : QueryContext) (value : Value) : Option String :=
  scanGroup value ((dictGet value.ty ctx.binds_values).getD [])

/-- The keys returned by the cache-miss calls of a lifetime, in mint order
(deduplication hits and alias calls contribute nothing). -/
def mintsOf (ctx : QueryContext) : List Op → List String
  | [] => []
  | Op.alias n :: rest => mintsOf (ctx.alias n).2 rest
  | Op.bind v cfg :: rest =>
      if (keyOf ctx v).isSome then
        mintsOf (ctx.bindparam v cfg).2 rest
      else
        (ctx.bindparam v cfg).1 :: mintsOf (ctx.bindparam v cfg).2 rest

/-- The values of the bind calls of a lifetime, in call order. -/
def bindValuesOf : List Op → List Value
  | [] => []
  | Op.bind v _ :: rest => v :: bindValuesOf rest
  | Op.alias _ :: rest => bindValuesOf rest

/-- A lifetime consisting only of alias calls. -/
def aliasOps (names : List String) : List Op :=
  names.map Op.alias

/-- All `(value, key)` registry entries, across all type buckets. -/
def entries (ctx : QueryContext) : List (Value × String) :=
  (ctx.binds_values.map Prod.snd).flatten

/-- Decides, along an alias-call trace, that no collision fallback
`f"{name}_{len(aliases)}"` is itself already a member of the alias set at the
time of its call (the latent gap flagged by the alias allocator's design
notes). -/
def goodAliasTraceB (ctx : QueryContext) : List String → Bool
  | [] => true
  | n :: rest =>
      (!(n ∈ ctx.aliases) ||
        !((n ++ "_" ++ toString ctx.aliases.length) ∈ ctx.aliases)) &&
      goodAliasTraceB (ctx.alias n).2 rest

/-- Modelled from the spec: the simpler reference implementation of §9 whose
registry scans one flat ordered list of all registered `(value, key)` pairs
with the same identity comparison, instead of type-bucketed lists. -/
structure FlatContext where
  binds_values : List (Value × String)
  binds_count : Nat
  binds : List (String × BindParameter)
deriving DecidableEq, Repr

/-- Modelled from the spec: the flat implementation starts empty. -/
def FlatContext.init : FlatContext :=
  ⟨[], 0, []⟩

/-- Modelled from the spec: `registerBind` of the flat implementation — one
identity scan over the whole flat list, then the identical mint-and-store
path. -/
def FlatContext.bindparam (ctx : FlatContext) (value : Value)
    (cfg : BindConfig) : String × FlatContext :=
  match scanGroup value ctx.binds_values with
  | some bind_key => (bind_key, ctx)
  | none =>
      let key := "b" ++ toString ctx.binds_count
      (key,
        { ctx with
          binds_values := ctx.binds_values ++ [(value, key)]
          binds_count := ctx.binds_count + 1
          binds := dictSet key (sqlalchemy.bindparam key value cfg) ctx.binds })

/-- Modelled from the spec: `exportBinds` of the flat implementation. -/
def FlatContext.get_bindparams (ctx : FlatContext) : List BindParameter :=
  ctx.binds.map Prod.snd

/-- Run a sequence of registrations through the flat implementation. -/
def runFlat (ctx : FlatContext) : List (Value × BindConfig) →
    List String × FlatContext
  | [] => ([], ctx)
  | (v, cfg) :: rest =>
      let r := ctx.bindparam v cfg
      let rs := runFlat r.2 rest
      (r.1 :: rs.1, rs.2)

/-- A sequence of registrations as a lifetime of bind calls. -/
def bindTrace (regs : List (Value × BindConfig)) : List Op :=
  regs.map fun r => Op.bind r.1 r.2

/-- Decimal digits of `n`, most significant first, as characters; the
fuel-free description of `Nat.toDigits 10`. -/
def repChars (n : Nat) : List Char :=
  if _h : n < 10 then [Nat.digitChar n]
  else repChars (n / 10) ++ [Nat.digitChar (n % 10)]
decreasing_by
  exact Nat.div_lt_self (by omega) (by omega)

/-- The state invariant of the bind registry, established by `__init__` and
preserved by every call: buckets are keyed by the runtime type of their
members, the stored keys are exactly `"b0" ... "b(count-1)"` in mint order,
the keys of `binds` match the multiset of keys across the buckets, no value
is registered twice, and `binds` maps each key to a record carrying that
key. -/
structure StateInv (ctx : QueryContext) : Prop where
  bucket_ty : ∀ p ∈ ctx.binds_values, ∀ e ∈ p.2, (e : Value × String).1.ty = p.1
  keys_eq : ctx.binds.map Prod.fst = (List.range ctx.binds_count).map mkKey
  keys_perm : ((entries ctx).map Prod.snd).Perm (ctx.binds.map Prod.fst)
  vals_nodup : ((entries ctx).map Prod.fst).Nodup
  dict_nodup : (ctx.binds_values.map Prod.fst).Nodup
  binds_key : ∀ p ∈ ctx.binds, (p : String × BindParameter).2.key = p.1

/-! ## Association-list (Python dict) lemmas -/

theorem dictGet_dictSet_self {α β : Type} [DecidableEq α] (k : α) (v : β)
    (l : List (α × β)) : dictGet k (dictSet k v l) = some v := by
  induction l with
  | nil => simp [dictGet, dictSet]
  | cons p rest ih =>
      obtain ⟨k', v'⟩ := p
      by_cases h : k' = k
      · simp [dictGet, dictSet, h]
      · simp [dictGet, dictSet, h, ih]

theorem dictGet_dictSet_other {α β : Type} [DecidableEq α] {k k' : α}
    (hne : k' ≠ k) (v : β) (l : List (α × β)) :
    dictGet k (dictSet k' v l) = dictGet k l := by
  induction l with
  | nil => simp [dictGet, dictSet, hne]
  | cons p rest ih =>
      obtain ⟨k'', v''⟩ := p
      by_cases h : k'' = k'
      · subst h
        simp [dictGet, dictSet, hne]
      · simp only [dictSet, if_neg h, dictGet]
        by_cases h2 : k'' = k
        · simp [h2]
        · simp [h2, ih]

theorem dictGet_eq_none_iff {α β : Type} [DecidableEq α] {k : α}
    {l : List (α × β)} : dictGet k l = none ↔ k ∉ l.map Prod.fst := by
  induction l with
  | nil => simp [dictGet]
  | cons p rest ih =>
      obtain ⟨k', v'⟩ := p
      by_cases h : k' = k
      · subst h
        simp [dictGet]
      · simp only [dictGet, if_neg h, List.map_cons, List.mem_cons, not_or, ih]
        constructor
        · intro hk
          exact ⟨fun hh => h hh.symm, hk⟩
        · intro hk
          exact hk.2

theorem dictSet_of_not_mem {α β : Type} [DecidableEq α] {k : α}
    {l : List (α × β)} (h : k ∉ l.map Prod.fst) (v : β) :
    dictSet k v l = l ++ [(k, v)] := by
  induction l with
  | nil => simp [dictSet]
  | cons p rest ih =>
      obtain ⟨k', v'⟩ := p
      simp only [List.map_cons, List.mem_cons, not_or] at h
      have hk : ¬ k' = k := fun hh => h.1 hh.symm
      simp only [dictSet, if_neg hk, List.cons_append]
      rw [ih h.2]

theorem dictGet_mem {α β : Type} [DecidableEq α] {k : α} {v : β}
    {l : List (α × β)} (h : dictGet k l = some v) : (k, v) ∈ l := by
  induction l with
  | nil => simp [dictGet] at h
  | cons p rest ih =>
      obtain ⟨k', v'⟩ := p
      by_cases hk : k' = k
      · subst hk
        simp [dictGet] at h
        simp [h]
      · simp only [dictGet, if_neg hk] at h
        exact List.mem_cons_of_mem _ (ih h)

theorem dictGet_some_decomp {α β : Type} [DecidableEq α] {k : α} {v : β}
    {l : List (α × β)} (h : dictGet k l = some v) (w : β) :
    ∃ A B, l = A ++ (k, v) :: B ∧ (∀ p ∈ A, (p : α × β).1 ≠ k) ∧
      dictSet k w l = A ++ (k, w) :: B := by
  induction l with
  | nil => simp [dictGet] at h
  | cons p rest ih =>
      obtain ⟨k', v'⟩ := p
      by_cases hk : k' = k
      · subst hk
        simp [dictGet] at h
        exact ⟨[], rest, by simp [h], by simp, by simp [dictSet]⟩
      · simp only [dictGet, if_neg hk] at h
        obtain ⟨A, B, hl, hA, hset⟩ := ih h
        refine ⟨(k', v') :: A, B, by simp [hl], ?_, by simp [dictSet, hk, hset]⟩
        intro p hp
        rcases List.mem_cons.mp hp with rfl | hp
        · exact hk
        · exact hA p hp

/-! ## Identity-scan lemmas -/

theorem scanGroup_append_of_some {v : Value} {g : List (Value × String)}
    {k : String} (h : scanGroup v g = some k) (e : Value × String) :
    scanGroup v (g ++ [e]) = some k := by
  induction g with
  | nil => simp [scanGroup] at h
  | cons p rest ih =>
      obtain ⟨bv, bk⟩ := p
      by_cases hb : bv = v
      · simp_all [scanGroup]
      · simp only [scanGroup, if_neg hb] at h
        simp [scanGroup, if_neg hb, ih h]

theorem scanGroup_append_of_none {v : Value} {g : List (Value × String)}
    (h : scanGroup v g = none) (e : Value × String) :
    scanGroup v (g ++ [e]) = if e.1 = v then some e.2 else none := by
  induction g with
  | nil => simp [scanGroup]
  | cons p rest ih =>
      obtain ⟨bv, bk⟩ := p
      by_cases hb : bv = v
      · simp [scanGroup, hb] at h
      · simp only [scanGroup, if_neg hb] at h
        simp [scanGroup, if_neg hb, ih h]

theorem scanGroup_mem {v : Value} {g : List (Value × String)} {k : String}
    (h : scanGroup v g = some k) : (v, k) ∈ g := by
  induction g with
  | nil => simp [scanGroup] at h
  | cons p rest ih =>
      obtain ⟨bv, bk⟩ := p
      by_cases hb : bv = v
      · subst hb
        simp [scanGroup] at h
        simp [h]
      · simp only [scanGroup, if_neg hb] at h
        exact List.mem_cons_of_mem _ (ih h)

theorem scanGroup_eq_none_iff {v : Value} {g : List (Value × String)} :
    scanGroup v g = none ↔ ∀ k, (v, k) ∉ g := by
  induction g with
  | nil => simp [scanGroup]
  | cons p rest ih =>
      obtain ⟨bv, bk⟩ := p
      by_cases hb : bv = v
      · subst hb
        simp only [scanGroup, if_pos rfl]
        constructor
        · intro h
          simp at h
        · intro h
          exact ((h bk) (List.mem_cons_self _ _)).elim
      · simp only [scanGroup, if_neg hb, ih]
        constructor
        · intro h k hm
          rcases List.mem_cons.mp hm with he | hm2
          · exact hb (congrArg Prod.fst he).symm
          · exact h k hm2
        · intro h k hm
          exact h k (List.mem_cons_of_mem _ hm)

/-! ## `bindparam` characterizations -/

theorem bindparam_hit {ctx : QueryContext} {v : Value} {k : String}
    (cfg : BindConfig) (h : keyOf ctx v = some k) :
    ctx.bindparam v cfg = (k, ctx) := by
  unfold keyOf at h
  simp only [QueryContext.bindparam]
  rw [h]

theorem bindparam_miss {ctx : QueryContext} {v : Value} (cfg : BindConfig)
    (h : keyOf ctx v = none) :
    ctx.bindparam v cfg =
      (mkKey ctx.binds_count,
        { ctx with
          binds_values :=
            dictSet v.ty
              (((dictGet v.ty ctx.binds_values).getD []) ++
                [(v, mkKey ctx.binds_count)])
              ctx.binds_values
          binds_count := ctx.binds_count + 1
          binds :=
            dictSet (mkKey ctx.binds_count)
              (sqlalchemy.bindparam (mkKey ctx.binds_count) v cfg)
              ctx.binds }) := by
  unfold keyOf at h
  simp only [QueryContext.bindparam]
  rw [h]
  rfl

/-! ## Frame lemmas and the `keyOf` step characterization -/

theorem bindparam_aliases (ctx : QueryContext) (v : Value) (cfg : BindConfig) :
    ((ctx.bindparam v cfg).2).aliases = ctx.aliases := by
  cases h : keyOf ctx v with
  | some k => rw [bindparam_hit cfg h]
  | none => rw [bindparam_miss cfg h]

theorem alias_binds_values (ctx : QueryContext) (n : String) :
    ((ctx.alias n).2).binds_values = ctx.binds_values := rfl

theorem alias_binds_count (ctx : QueryContext) (n : String) :
    ((ctx.alias n).2).binds_count = ctx.binds_count := rfl

theorem alias_binds (ctx : QueryContext) (n : String) :
    ((ctx.alias n).2).binds = ctx.binds := rfl

theorem keyOf_bindparam (ctx : QueryContext) (v w : Value) (cfg : BindConfig) :
    keyOf (ctx.bindparam v cfg).2 w =
      if w = v then some (ctx.bindparam v cfg).1 else keyOf ctx w := by
  cases h : keyOf ctx v with
  | some k =>
      rw [bindparam_hit cfg h]
      by_cases hw : w = v
      · subst hw
        simp [h]
      · simp [hw]
  | none =>
      rw [bindparam_miss cfg h]
      simp only [keyOf] at h ⊢
      by_cases hty : w.ty = v.ty
      · rw [hty, dictGet_dictSet_self, Option.getD_some]
        by_cases hw : w = v
        · subst hw
          rw [scanGroup_append_of_none h]
          simp
        · rw [if_neg hw, ← hty]
          cases hs : scanGroup w ((dictGet w.ty ctx.binds_values).getD []) with
          | none =>
              rw [scanGroup_append_of_none hs]
              simp only [if_neg (show ¬v = w from fun hh => hw hh.symm)]
          | some k' =>
              rw [scanGroup_append_of_some hs]
      · rw [dictGet_dictSet_other (fun hh => hty hh.symm)]
        rw [if_neg (fun hw : w = v => hty (by rw [hw]))]

theorem keyOf_bindparam_self (ctx : QueryContext) (v : Value)
    (cfg : BindConfig) :
    keyOf (ctx.bindparam v cfg).2 v = some (ctx.bindparam v cfg).1 := by
  rw [keyOf_bindparam]
  simp

theorem keyOf_applyOp {ctx : QueryContext} {v : Value} {k : String} (op : Op)
    (h : keyOf ctx v = some k) : keyOf (applyOp ctx op).2 v = some k := by
  match op with
  | Op.bind w cfg =>
      simp only [applyOp]
      rw [keyOf_bindparam]
      by_cases hw : v = w
      · subst hw
        rw [bindparam_hit cfg h]
        simp
      · rw [if_neg hw]
        exact h
  | Op.alias n => exact h

/-! ## Running a lifetime of calls -/

theorem runOps_cons (ctx : QueryContext) (op : Op) (rest : List Op) :
    runOps ctx (op :: rest) =
      ((applyOp ctx op).1 :: (runOps (applyOp ctx op).2 rest).1,
        (runOps (applyOp ctx op).2 rest).2) := rfl

theorem runOps_length (ctx : QueryContext) (ops : List Op) :
    (runOps ctx ops).1.length = ops.length := by
  induction ops generalizing ctx with
  | nil => rfl
  | cons op rest ih => simp [runOps_cons, ih]

theorem keyOf_runOps {ctx : QueryContext} {v : Value} {k : String}
    (ops : List Op) (h : keyOf ctx v = some k) :
    keyOf (runOps ctx ops).2 v = some k := by
  induction ops generalizing ctx with
  | nil => exact h
  | cons op rest ih =>
      rw [runOps_cons]
      exact ih (keyOf_applyOp op h)

theorem runOps_out_key {v : Value} {cfg : BindConfig} :
    ∀ (ops : List Op) (ctx : QueryContext) (i : Nat),
      ops[i]? = some (Op.bind v cfg) →
      ∃ k, (runOps ctx ops).1[i]? = some k ∧
        keyOf (runOps ctx ops).2 v = some k
  | [], _, i, h => by simp at h
  | op :: rest, ctx, 0, h => by
      rw [List.getElem?_cons_zero] at h
      obtain rfl := Option.some.inj h
      rw [runOps_cons]
      refine ⟨(applyOp ctx (Op.bind v cfg)).1, by simp, ?_⟩
      exact keyOf_runOps rest
        (by simpa [applyOp] using keyOf_bindparam_self ctx v cfg)
  | op :: rest, ctx, i + 1, h => by
      rw [List.getElem?_cons_succ] at h
      obtain ⟨k, h1, h2⟩ := runOps_out_key rest (applyOp ctx op).2 i h
      exact ⟨k, by simpa [runOps_cons] using h1,
        by simpa [runOps_cons] using h2⟩

/-- C1: for every QueryContext lifetime, two `bindparam` calls whose value
arguments are the same object (identity: equal `Value` records, see the
module docstring) return the same key string. -/
theorem bindparam_same_object_same_key (ops : List Op) (i j : Nat) (v : Value)
    (cfg₁ cfg₂ : BindConfig) (hi : ops[i]? = some (Op.bind v cfg₁))
    (hj : ops[j]? = some (Op.bind v cfg₂)) :
    (runOps QueryContext.init ops).1[i]? =
      (runOps QueryContext.init ops).1[j]? := by
  obtain ⟨k, hk1, hk2⟩ := runOps_out_key ops QueryContext.init i hi
  obtain ⟨k', hk1', hk2'⟩ := runOps_out_key ops QueryContext.init j hj
  rw [hk1, hk1', Option.some.inj (hk2.symm.trans hk2')]

/-- Witness for C1: registering the same object twice (here with different
configurations) returns the same key. -/
theorem bindparam_same_object_same_key_witness :
    [Op.bind ⟨1, 0, 5⟩ BindConfig.default,
        Op.bind ⟨1, 0, 5⟩ ⟨none, true, none, none, none, false, false, false⟩][0]? =
      some (Op.bind ⟨1, 0, 5⟩ BindConfig.default) ∧
    (runOps QueryContext.init
        [Op.bind ⟨1, 0, 5⟩ BindConfig.default,
          Op.bind ⟨1, 0, 5⟩
            ⟨none, true, none, none, none, false, false, false⟩]).1[0]? =
      (runOps QueryContext.init
        [Op.bind ⟨1, 0, 5⟩ BindConfig.default,
          Op.bind ⟨1, 0, 5⟩
            ⟨none, true, none, none, none, false, false, false⟩]).1[1]? :=
  ⟨by decide,
    bindparam_same_object_same_key _ 0 1 ⟨1, 0, 5⟩ BindConfig.default
      ⟨none, true, none, none, none, false, false, false⟩ (by decide) (by decide)⟩

/-- C7: a `bindparam` call whose value is identical to a previously
registered one returns the existing key (the one the earlier call returned)
and leaves the whole context state — alias set, buckets, counter and stored
binds — exactly unchanged. -/
theorem bindparam_dedup_hit_frame (ops : List Op) (i : Nat) (v : Value)
    (cfg₁ cfg₂ : BindConfig) (hi : ops[i]? = some (Op.bind v cfg₁)) :
    ∃ k, (runOps QueryContext.init ops).1[i]? = some k ∧
      QueryContext.bindparam (runOps QueryContext.init ops).2 v cfg₂ =
        (k, (runOps QueryContext.init ops).2) := by
  obtain ⟨k, h1, h2⟩ := runOps_out_key ops QueryContext.init i hi
  exact ⟨k, h1, bindparam_hit cfg₂ h2⟩

/-- Witness for C7: after one registration, re-registering the same object
returns the recorded key and the state is untouched. -/
theorem bindparam_dedup_hit_frame_witness :
    [Op.bind ⟨7, 2, 3⟩ BindConfig.default][0]? =
      some (Op.bind ⟨7, 2, 3⟩ BindConfig.default) ∧
    ∃ k, (runOps QueryContext.init [Op.bind ⟨7, 2, 3⟩ BindConfig.default]).1[0]? =
        some k ∧
      QueryContext.bindparam
          (runOps QueryContext.init [Op.bind ⟨7, 2, 3⟩ BindConfig.default]).2
          ⟨7, 2, 3⟩ ⟨some 4, false, some true, none, none, true, false, false⟩ =
        (k, (runOps QueryContext.init [Op.bind ⟨7, 2, 3⟩ BindConfig.default]).2) :=
  ⟨by decide,
    bindparam_dedup_hit_frame [Op.bind ⟨7, 2, 3⟩ BindConfig.default] 0 ⟨7, 2, 3⟩
      BindConfig.default ⟨some 4, false, some true, none, none, true, false, false⟩
      (by decide)⟩

/-! ## Alias allocator lemmas -/

theorem mem_addAlias_self (x : String) (s : List String) : x ∈ addAlias x s := by
  by_cases h : x ∈ s
  · simp [addAlias, h]
  · simp [addAlias, h]

theorem subset_addAlias (x : String) (s : List String) : s ⊆ addAlias x s := by
  intro a ha
  by_cases h : x ∈ s
  · simpa [addAlias, h]
  · simp [addAlias, h, ha]

theorem alias_self_mem (ctx : QueryContext) (n : String) :
    (ctx.alias n).1 ∈ (ctx.alias n).2.aliases :=
  mem_addAlias_self _ _

theorem aliases_subset_applyOp (ctx : QueryContext) (op : Op) :
    ctx.aliases ⊆ (applyOp ctx op).2.aliases := by
  match op with
  | Op.bind v cfg =>
      simp only [applyOp]
      rw [bindparam_aliases]
      exact fun a ha => ha
  | Op.alias n => exact subset_addAlias _ _

theorem aliases_subset_runOps (ctx : QueryContext) (ops : List Op) :
    ctx.aliases ⊆ (runOps ctx ops).2.aliases := by
  induction ops generalizing ctx with
  | nil => exact fun a ha => ha
  | cons op rest ih =>
      rw [runOps_cons]
      exact fun a ha => ih (applyOp ctx op).2 (aliases_subset_applyOp ctx op ha)

theorem alias_out_not_mem {ctx : QueryContext} {n : String}
    (hgood : n ∈ ctx.aliases →
      (n ++ "_" ++ toString ctx.aliases.length) ∉ ctx.aliases) :
    (ctx.alias n).1 ∉ ctx.aliases := by
  by_cases hc : n ∈ ctx.aliases
  · simpa [QueryContext.alias, hc] using hgood hc
  · simp only [QueryContext.alias, if_neg hc]
    exact hc

theorem goodAliasTraceB_cons {ctx : QueryContext} {n : String}
    {rest : List String} (h : goodAliasTraceB ctx (n :: rest) = true) :
    (n ∈ ctx.aliases →
      (n ++ "_" ++ toString ctx.aliases.length) ∉ ctx.aliases) ∧
    goodAliasTraceB (ctx.alias n).2 rest = true := by
  rw [goodAliasTraceB, Bool.and_eq_true] at h
  refine ⟨fun hmem hf => ?_, h.2⟩
  have h1 := h.1
  simp [hmem, hf] at h1

theorem runAlias_out_not_mem_start :
    ∀ (names : List String) (ctx : QueryContext),
      goodAliasTraceB ctx names = true →
      ∀ o ∈ (runOps ctx (aliasOps names)).1, o ∉ ctx.aliases
  | [], _, _, o, ho => by simp [aliasOps, runOps] at ho
  | n :: rest, ctx, h, o, ho => by
      obtain ⟨hhead, htail⟩ := goodAliasTraceB_cons h
      simp only [aliasOps, List.map_cons] at ho
      rw [runOps_cons] at ho
      rcases List.mem_cons.mp ho with rfl | ho2
      · exact alias_out_not_mem hhead
      · intro hmem
        exact runAlias_out_not_mem_start rest (ctx.alias n).2 htail o ho2
          (subset_addAlias _ _ hmem)

theorem runAlias_pairwise :
    ∀ (names : List String) (ctx : QueryContext),
      goodAliasTraceB ctx names = true →
      List.Pairwise (fun a b => a ≠ b) (runOps ctx (aliasOps names)).1
  | [], _, _ => by simp [aliasOps, runOps]
  | n :: rest, ctx, h => by
      obtain ⟨hhead, htail⟩ := goodAliasTraceB_cons h
      simp only [aliasOps, List.map_cons]
      rw [runOps_cons]
      refine List.Pairwise.cons ?_ (runAlias_pairwise rest (ctx.alias n).2 htail)
      intro o ho heq
      exact runAlias_out_not_mem_start rest (ctx.alias n).2 htail o ho
        (heq ▸ alias_self_mem ctx n)

theorem runAlias_out_mem_final :
    ∀ (names : List String) (ctx : QueryContext),
      ∀ o ∈ (runOps ctx (aliasOps names)).1,
        o ∈ (runOps ctx (aliasOps names)).2.aliases
  | [], _, o, ho => by simp [aliasOps, runOps] at ho
  | n :: rest, ctx, o, ho => by
      simp only [aliasOps, List.map_cons] at ho ⊢
      rw [runOps_cons] at ho ⊢
      rcases List.mem_cons.mp ho with rfl | ho2
      · exact aliases_subset_runOps (ctx.alias n).2 (aliasOps rest)
          (alias_self_mem ctx n)
      · exact runAlias_out_mem_final rest (ctx.alias n).2 o ho2

/-- C3 counterexample: the alias operation is not unconditionally injective —
on the call sequence `alias("t"); alias("t_2"); alias("t")` the first and
third collision-free reservations are `"t"` and `"t_2"`, and the third call
collides and falls back to `"t" + "_" + str(2) = "t_2"`, which is already
taken, so two calls return the same string. -/
theorem alias_outputs_not_pairwise_distinct :
    ¬ List.Pairwise (fun a b => a ≠ b)
      (runOps QueryContext.init (aliasOps ["t", "t_2", "t"])).1 := by
  decide

/-- C3 (amended): every string returned by the alias operation is a member of
the recorded alias set afterwards; and the returned strings are pairwise
distinct provided that at no call the collision fallback
`candidate + "_" + str(len(aliases))` is itself already a member of the alias
set (the latent gap the spec flags; without that proviso the property fails,
see the counterexample). -/
theorem alias_outputs_distinct_of_good (names : List String)
    (h : goodAliasTraceB QueryContext.init names = true) :
    List.Pairwise (fun a b => a ≠ b)
      (runOps QueryContext.init (aliasOps names)).1 ∧
    ∀ o ∈ (runOps QueryContext.init (aliasOps names)).1,
      o ∈ (runOps QueryContext.init (aliasOps names)).2.aliases :=
  ⟨runAlias_pairwise names QueryContext.init h,
    runAlias_out_mem_final names QueryContext.init⟩

/-- Witness for C3 (amended): the canonical `"t", "t", "t"` trace is good and
its outputs `"t", "t_1", "t_2"` are pairwise distinct and recorded. -/
theorem alias_outputs_distinct_of_good_witness :
    goodAliasTraceB QueryContext.init ["t", "t", "t"] = true ∧
    (List.Pairwise (fun a b => a ≠ b)
      (runOps QueryContext.init (aliasOps ["t", "t", "t"])).1 ∧
    ∀ o ∈ (runOps QueryContext.init (aliasOps ["t", "t", "t"])).1,
      o ∈ (runOps QueryContext.init (aliasOps ["t", "t", "t"])).2.aliases) :=
  ⟨by decide, alias_outputs_distinct_of_good ["t", "t", "t"] (by decide)⟩

/-- C5: on any reachable context, `alias(n)` returns `n` when `n` is free and
otherwise `n + "_" + k` where `k` is the current size of the alias set at the
time of the call; the returned string is added to the set; and three
successive `alias("t")` calls on a fresh context return `"t"`, `"t_1"`,
`"t_2"`. -/
theorem alias_collision_suffix_spec (ops : List Op) (n : String) :
    ((runOps QueryContext.init ops).2.alias n).1 =
      (if n ∈ (runOps QueryContext.init ops).2.aliases then
        n ++ "_" ++ toString (runOps QueryContext.init ops).2.aliases.length
      else n) ∧
    ((runOps QueryContext.init ops).2.alias n).1 ∈
      ((runOps QueryContext.init ops).2.alias n).2.aliases ∧
    (runOps QueryContext.init (aliasOps ["t", "t", "t"])).1 =
      ["t", "t_1", "t_2"] :=
  ⟨rfl, alias_self_mem _ n, by decide⟩

/-! ## Injectivity of the minted keys `f"b{n}"` -/

theorem repChars_lt {n : Nat} (h : n < 10) : repChars n = [Nat.digitChar n] := by
  rw [repChars]
  simp [h]

theorem repChars_ge {n : Nat} (h : ¬ n < 10) :
    repChars n = repChars (n / 10) ++ [Nat.digitChar (n % 10)] := by
  rw [repChars]
  simp [h]

theorem repChars_toDigitsCore :
    ∀ (fuel n : Nat) (acc : List Char), n < fuel →
      Nat.toDigitsCore 10 fuel n acc = repChars n ++ acc := by
  intro fuel
  induction fuel with
  | zero => intro n acc h; omega
  | succ f ih =>
      intro n acc h
      simp only [Nat.toDigitsCore]
      by_cases h0 : n / 10 = 0
      · have hn : n < 10 := by omega
        rw [if_pos h0, repChars_lt hn, Nat.mod_eq_of_lt hn]
        simp
      · have hge : ¬ n < 10 := by omega
        have hlt : n / 10 < f := by omega
        rw [if_neg h0, ih (n / 10) _ hlt, repChars_ge hge]
        simp

theorem repr_eq_repChars (n : Nat) : Nat.repr n = (repChars n).asString := by
  rw [Nat.repr, Nat.toDigits, repChars_toDigitsCore (n + 1) n [] (Nat.lt_succ_self n)]
  simp

theorem digitChar_inj_lt {a b : Nat} (ha : a < 10) (hb : b < 10)
    (h : Nat.digitChar a = Nat.digitChar b) : a = b := by
  have hfin : ∀ x y : Fin 10, Nat.digitChar x.val = Nat.digitChar y.val → x = y := by
    decide
  exact congrArg Fin.val (hfin ⟨a, ha⟩ ⟨b, hb⟩ h)

theorem repChars_ne_nil (n : Nat) : repChars n ≠ [] := by
  rw [repChars]
  by_cases h : n < 10
  · simp [h]
  · simp [h]

theorem repChars_inj : ∀ (m n : Nat), repChars m = repChars n → m = n := by
  intro m
  induction m using Nat.strong_induction_on with
  | _ m ih =>
      intro n h
      by_cases hm : m < 10 <;> by_cases hn : n < 10
      · rw [repChars_lt hm, repChars_lt hn] at h
        simp only [List.cons.injEq, and_true] at h
        exact digitChar_inj_lt hm hn h
      · rw [repChars_lt hm, repChars_ge hn] at h
        rcases hrc : repChars (n / 10) with _ | ⟨c, cs⟩
        · exact absurd hrc (repChars_ne_nil _)
        · rw [hrc] at h
          simp at h
      · rw [repChars_ge hm, repChars_lt hn] at h
        rcases hrc : repChars (m / 10) with _ | ⟨c, cs⟩
        · exact absurd hrc (repChars_ne_nil _)
        · rw [hrc] at h
          simp at h
      · rw [repChars_ge hm, repChars_ge hn] at h
        have h2 := congrArg List.reverse h
        simp only [List.reverse_append, List.reverse_cons, List.reverse_nil,
          List.nil_append, List.singleton_append, List.cons.injEq] at h2
        obtain ⟨hx, hA⟩ := h2
        have hdiv : m / 10 = n / 10 :=
          ih (m / 10) (by omega) (n / 10) (List.reverse_injective hA)
        have hmod : m % 10 = n % 10 :=
          digitChar_inj_lt (Nat.mod_lt _ (by omega)) (Nat.mod_lt _ (by omega)) hx
        omega

theorem mkKey_data (n : Nat) : (mkKey n).data = 'b' :: repChars n := by
  rw [mkKey, show (toString n) = Nat.repr n from rfl, repr_eq_repChars]
  rfl

theorem mkKey_inj {m n : Nat} (h : mkKey m = mkKey n) : m = n := by
  apply repChars_inj
  have hd := congrArg String.data h
  rw [mkKey_data, mkKey_data] at hd
  exact (List.cons.inj hd).2

/-! ## Registry entries and the state invariant -/

theorem mem_entries_of_bucket {ctx : QueryContext} {ty : Nat}
    {g : List (Value × String)} {e : Value × String}
    (hg : (ty, g) ∈ ctx.binds_values) (he : e ∈ g) : e ∈ entries ctx := by
  rw [entries, List.mem_flatten]
  exact ⟨g, List.mem_map_of_mem Prod.snd hg, he⟩

theorem entry_of_keyOf_some {ctx : QueryContext} {v : Value} {k : String}
    (h : keyOf ctx v = some k) : (v, k) ∈ entries ctx := by
  unfold keyOf at h
  cases hd : dictGet v.ty ctx.binds_values with
  | none =>
      rw [hd] at h
      simp [scanGroup] at h
  | some g =>
      rw [hd] at h
      simp only [Option.getD_some] at h
      exact mem_entries_of_bucket (dictGet_mem hd) (scanGroup_mem h)

theorem dictGet_of_mem_of_nodup {α β : Type} [DecidableEq α]
    {l : List (α × β)} (hnd : (l.map Prod.fst).Nodup) {k : α} {g : β}
    (hm : (k, g) ∈ l) : dictGet k l = some g := by
  induction l with
  | nil => simp at hm
  | cons p rest ih =>
      obtain ⟨k', g'⟩ := p
      simp only [List.map_cons, List.nodup_cons] at hnd
      rcases List.mem_cons.mp hm with he | hm2
      · injection he with h1 h2
        subst h1
        subst h2
        simp [dictGet]
      · have hk : k' ≠ k :=
          fun he2 => hnd.1 (he2 ▸ List.mem_map_of_mem Prod.fst hm2)
        simp only [dictGet, if_neg hk]
        exact ih hnd.2 hm2

theorem not_mem_entries_of_keyOf_none {ctx : QueryContext}
    (hb : ∀ p ∈ ctx.binds_values, ∀ e ∈ p.2, (e : Value × String).1.ty = p.1)
    (hnd : (ctx.binds_values.map Prod.fst).Nodup)
    {v : Value} (h : keyOf ctx v = none) : ∀ k, (v, k) ∉ entries ctx := by
  intro k hmem
  rw [entries, List.mem_flatten] at hmem
  obtain ⟨g, hg, he⟩ := hmem
  obtain ⟨p, hp, rfl⟩ := List.mem_map.mp hg
  have hty : v.ty = p.1 := hb p hp (v, k) he
  have hget : dictGet v.ty ctx.binds_values = some p.2 := by
    rw [hty]
    exact dictGet_of_mem_of_nodup hnd (by simpa using hp)
  unfold keyOf at h
  rw [hget, Option.getD_some] at h
  exact scanGroup_eq_none_iff.mp h k he

theorem entries_dictSet_some {bv : List (Nat × List (Value × String))}
    {ty : Nat} {g : List (Value × String)} (h : dictGet ty bv = some g)
    (e : Value × String) :
    ((dictSet ty (g ++ [e]) bv).map Prod.snd).flatten.Perm
      ((bv.map Prod.snd).flatten ++ [e]) := by
  obtain ⟨A, B, hbv, hA, hset⟩ := dictGet_some_decomp h (g ++ [e])
  rw [hset, hbv]
  simp only [List.map_append, List.map_cons, List.flatten_append,
    List.flatten_cons]
  apply List.perm_iff_count.mpr
  intro a
  simp only [List.count_append]
  omega

theorem entries_bindparam_miss {ctx : QueryContext} {v : Value}
    (cfg : BindConfig) (h : keyOf ctx v = none) :
    (entries (ctx.bindparam v cfg).2).Perm
      (entries ctx ++ [(v, mkKey ctx.binds_count)]) := by
  rw [bindparam_miss cfg h]
  cases hd : dictGet v.ty ctx.binds_values with
  | none =>
      simp only [entries, hd, Option.getD_none, List.nil_append]
      rw [dictSet_of_not_mem (dictGet_eq_none_iff.mp hd)]
      simp only [List.map_append, List.map_cons, List.flatten_append,
        List.flatten_cons, List.flatten_nil, List.append_nil]
      exact List.Perm.refl _
  | some g =>
      simp only [entries, hd, Option.getD_some]
      exact entries_dictSet_some hd _

theorem mem_dictSet_some {α β : Type} [DecidableEq α] {l : List (α × β)}
    {k : α} {g : β} (h : dictGet k l = some g) (g' : β) {p : α × β}
    (hp : p ∈ dictSet k g' l) : p = (k, g') ∨ p ∈ l := by
  obtain ⟨A, B, hbv, hA, hset⟩ := dictGet_some_decomp h g'
  rw [hset] at hp
  rw [hbv]
  rcases List.mem_append.mp hp with hA2 | hB
  · exact Or.inr (List.mem_append.mpr (Or.inl hA2))
  · rcases List.mem_cons.mp hB with he | hB2
    · exact Or.inl he
    · exact Or.inr (by simp [hB2])

theorem dictSet_keys_of_some {α β : Type} [DecidableEq α] {l : List (α × β)}
    {k : α} {g : β} (h : dictGet k l = some g) (g' : β) :
    (dictSet k g' l).map Prod.fst = l.map Prod.fst := by
  obtain ⟨A, B, hbv, hA, hset⟩ := dictGet_some_decomp h g'
  rw [hset, hbv]
  simp

theorem nodup_append_singleton {α : Type} {l : List α} {a : α}
    (hnd : l.Nodup) (ha : a ∉ l) : (l ++ [a]).Nodup := by
  rw [List.nodup_append]
  exact ⟨hnd, List.nodup_singleton a, fun x hx hxa => ha (by
    rw [List.mem_singleton.mp hxa] at hx
    exact hx)⟩

theorem stateInv_init : StateInv QueryContext.init where
  bucket_ty := by
    intro p hp
    simp [QueryContext.init] at hp
  keys_eq := by simp [QueryContext.init]
  keys_perm := by simp [QueryContext.init, entries]
  vals_nodup := by simp [QueryContext.init, entries]
  dict_nodup := by simp [QueryContext.init]
  binds_key := by
    intro p hp
    simp [QueryContext.init] at hp

theorem mkKey_count_not_mem {ctx : QueryContext} (inv : StateInv ctx) :
    mkKey ctx.binds_count ∉ ctx.binds.map Prod.fst := by
  rw [inv.keys_eq]
  intro hmem
  obtain ⟨m, hm, hkey⟩ := List.mem_map.mp hmem
  have h1 := mkKey_inj hkey
  have h2 := List.mem_range.mp hm
  omega

theorem binds_bindparam_miss {ctx : QueryContext} (inv : StateInv ctx)
    {v : Value} (cfg : BindConfig) (h : keyOf ctx v = none) :
    (ctx.bindparam v cfg).2.binds =
      ctx.binds ++ [(mkKey ctx.binds_count,
        sqlalchemy.bindparam (mkKey ctx.binds_count) v cfg)] := by
  rw [bindparam_miss cfg h]
  exact dictSet_of_not_mem (mkKey_count_not_mem inv) _

theorem count_bindparam_miss {ctx : QueryContext} {v : Value}
    (cfg : BindConfig) (h : keyOf ctx v = none) :
    (ctx.bindparam v cfg).2.binds_count = ctx.binds_count + 1 := by
  rw [bindparam_miss cfg h]

theorem stateInv_bindparam {ctx : QueryContext} (inv : StateInv ctx)
    (v : Value) (cfg : BindConfig) : StateInv (ctx.bindparam v cfg).2 := by
  cases h : keyOf ctx v with
  | some k =>
      rw [bindparam_hit cfg h]
      exact inv
  | none =>
      have hperm := entries_bindparam_miss cfg h
      have hbinds' := binds_bindparam_miss inv cfg h
      have hcount' := count_bindparam_miss cfg h
      refine ⟨?_, ?_, ?_, ?_, ?_, ?_⟩
      · intro p hp e he
        rw [bindparam_miss cfg h] at hp
        cases hd : dictGet v.ty ctx.binds_values with
        | none =>
            simp only [hd, Option.getD_none, List.nil_append] at hp
            rw [dictSet_of_not_mem (dictGet_eq_none_iff.mp hd)] at hp
            rcases List.mem_append.mp hp with hbv | hnew
            · exact inv.bucket_ty p hbv e he
            · rw [List.mem_singleton.mp hnew] at he ⊢
              rw [List.mem_singleton.mp he]
        | some g =>
            simp only [hd, Option.getD_some] at hp
            rcases mem_dictSet_some hd _ hp with rfl | hbv
            · rcases List.mem_append.mp he with hg | hnew
              · exact inv.bucket_ty (v.ty, g) (dictGet_mem hd) e hg
              · rw [List.mem_singleton.mp hnew]
            · exact inv.bucket_ty p hbv e he
      · rw [hbinds', hcount', List.range_succ]
        simp [inv.keys_eq]
      · have h1 : ((entries (ctx.bindparam v cfg).2).map Prod.snd).Perm
            ((entries ctx).map Prod.snd ++ [mkKey ctx.binds_count]) := by
          have := hperm.map Prod.snd
          simpa using this
        have h2 : (ctx.bindparam v cfg).2.binds.map Prod.fst =
            ctx.binds.map Prod.fst ++ [mkKey ctx.binds_count] := by
          rw [hbinds']
          simp
        rw [h2]
        exact h1.trans (inv.keys_perm.append_right _)
      · have h1 : ((entries (ctx.bindparam v cfg).2).map Prod.fst).Perm
            ((entries ctx).map Prod.fst ++ [v]) := by
          have := hperm.map Prod.fst
          simpa using this
        rw [h1.nodup_iff]
        refine nodup_append_singleton inv.vals_nodup ?_
        intro hmem
        obtain ⟨e, hee, hev⟩ := List.mem_map.mp hmem
        have : (v, e.2) ∈ entries ctx := by
          have : e = (v, e.2) := by
            rw [← hev]
          rw [← this]
          exact hee
        exact not_mem_entries_of_keyOf_none inv.bucket_ty inv.dict_nodup h e.2 this
      · rw [bindparam_miss cfg h]
        cases hd : dictGet v.ty ctx.binds_values with
        | none =>
            simp only [hd, Option.getD_none, List.nil_append]
            rw [dictSet_of_not_mem (dictGet_eq_none_iff.mp hd)]
            simp only [List.map_append, List.map_cons, List.map_nil]
            exact nodup_append_singleton inv.dict_nodup
              (dictGet_eq_none_iff.mp hd)
        | some g =>
            simp only [hd, Option.getD_some]
            rw [dictSet_keys_of_some hd]
            exact inv.dict_nodup
      · intro p hp
        rw [hbinds'] at hp
        rcases List.mem_append.mp hp with hold | hnew
        · exact inv.binds_key p hold
        · rw [List.mem_singleton.mp hnew]
          rfl

theorem stateInv_alias {ctx : QueryContext} (inv : StateInv ctx) (n : String) :
    StateInv (ctx.alias n).2 :=
  ⟨inv.bucket_ty, inv.keys_eq, inv.keys_perm, inv.vals_nodup, inv.dict_nodup,
    inv.binds_key⟩

theorem stateInv_applyOp {ctx : QueryContext} (inv : StateInv ctx) (op : Op) :
    StateInv (applyOp ctx op).2 := by
  match op with
  | Op.bind v cfg => exact stateInv_bindparam inv v cfg
  | Op.alias n => exact stateInv_alias inv n

theorem stateInv_runOps {ctx : QueryContext} (inv : StateInv ctx)
    (ops : List Op) : StateInv (runOps ctx ops).2 := by
  induction ops generalizing ctx with
  | nil => exact inv
  | cons op rest ih =>
      rw [runOps_cons]
      exact ih (stateInv_applyOp inv op)

theorem entries_keys_nodup {ctx : QueryContext} (inv : StateInv ctx) :
    ((entries ctx).map Prod.snd).Nodup := by
  rw [inv.keys_perm.nodup_iff, inv.keys_eq]
  exact (List.nodup_range _).map fun a b hab => mkKey_inj hab

/-- C2: for every QueryContext lifetime, two `bindparam` calls whose value
arguments are distinct objects (distinct `ref`s — even when the remaining
fields, i.e. the observable value, agree) return two different key
strings. -/
theorem bindparam_distinct_objects_distinct_keys (ops : List Op) (i j : Nat)
    (a b : Value) (cfg₁ cfg₂ : BindConfig)
    (hi : ops[i]? = some (Op.bind a cfg₁))
    (hj : ops[j]? = some (Op.bind b cfg₂)) (href : a.ref ≠ b.ref) :
    (runOps QueryContext.init ops).1[i]? ≠
      (runOps QueryContext.init ops).1[j]? := by
  obtain ⟨k, h1, h2⟩ := runOps_out_key ops QueryContext.init i hi
  obtain ⟨k', h1', h2'⟩ := runOps_out_key ops QueryContext.init j hj
  rw [h1, h1']
  intro heq
  obtain rfl : k = k' := Option.some.inj heq
  have ea := entry_of_keyOf_some h2
  have eb := entry_of_keyOf_some h2'
  have inv := stateInv_runOps stateInv_init ops
  have hnd := entries_keys_nodup inv
  have heq2 := List.inj_on_of_nodup_map hnd ea eb rfl
  exact href (congrArg (fun p : Value × String => p.1.ref) heq2)

/-- Witness for C2: two objects with distinct identities but equal type and
payload (value-equal) receive distinct keys. -/
theorem bindparam_distinct_objects_distinct_keys_witness :
    [Op.bind ⟨1, 0, 5⟩ BindConfig.default,
        Op.bind ⟨2, 0, 5⟩ BindConfig.default][0]? =
      some (Op.bind ⟨1, 0, 5⟩ BindConfig.default) ∧
    (⟨1, 0, 5⟩ : Value).ref ≠ (⟨2, 0, 5⟩ : Value).ref ∧
    (runOps QueryContext.init
        [Op.bind ⟨1, 0, 5⟩ BindConfig.default,
          Op.bind ⟨2, 0, 5⟩ BindConfig.default]).1[0]? ≠
      (runOps QueryContext.init
        [Op.bind ⟨1, 0, 5⟩ BindConfig.default,
          Op.bind ⟨2, 0, 5⟩ BindConfig.default]).1[1]? :=
  ⟨by decide, by decide,
    bindparam_distinct_objects_distinct_keys _ 0 1 ⟨1, 0, 5⟩ ⟨2, 0, 5⟩
      BindConfig.default BindConfig.default (by decide) (by decide) (by decide)⟩

/-! ## Counter monotonicity and persistence of stored binds -/

theorem count_le_applyOp (ctx : QueryContext) (op : Op) :
    ctx.binds_count ≤ (applyOp ctx op).2.binds_count := by
  match op with
  | Op.bind v cfg =>
      cases h : keyOf ctx v with
      | some k =>
          simp only [applyOp]
          rw [bindparam_hit cfg h]
      | none =>
          simp only [applyOp]
          rw [count_bindparam_miss cfg h]
          omega
  | Op.alias n => exact Nat.le_refl _

theorem count_le_runOps (ctx : QueryContext) (ops : List Op) :
    ctx.binds_count ≤ (runOps ctx ops).2.binds_count := by
  induction ops generalizing ctx with
  | nil => exact Nat.le_refl _
  | cons op rest ih =>
      rw [runOps_cons]
      exact (count_le_applyOp ctx op).trans (ih _)

theorem dictGet_append_of_some {α β : Type} [DecidableEq α]
    {l : List (α × β)} {k : α} {v : β} (h : dictGet k l = some v)
    (l' : List (α × β)) : dictGet k (l ++ l') = some v := by
  induction l with
  | nil => simp [dictGet] at h
  | cons p rest ih =>
      obtain ⟨k', v'⟩ := p
      by_cases hk : k' = k
      · simp only [List.cons_append, dictGet, if_pos hk] at h ⊢
        exact h
      · simp only [List.cons_append, dictGet, if_neg hk] at h ⊢
        exact ih h

theorem binds_persist_applyOp {ctx : QueryContext} (inv : StateInv ctx)
    {k : String} {bp : BindParameter} (h : dictGet k ctx.binds = some bp)
    (op : Op) : dictGet k (applyOp ctx op).2.binds = some bp := by
  match op with
  | Op.bind v cfg =>
      cases hk : keyOf ctx v with
      | some k2 =>
          simp only [applyOp]
          rw [bindparam_hit cfg hk]
          exact h
      | none =>
          simp only [applyOp]
          rw [binds_bindparam_miss inv cfg hk]
          exact dictGet_append_of_some h _
  | Op.alias n => exact h

theorem binds_persist_runOps {ctx : QueryContext} (inv : StateInv ctx)
    {k : String} {bp : BindParameter} (h : dictGet k ctx.binds = some bp)
    (ops : List Op) : dictGet k (runOps ctx ops).2.binds = some bp := by
  induction ops generalizing ctx with
  | nil => exact h
  | cons op rest ih =>
      rw [runOps_cons]
      exact ih (stateInv_applyOp inv op) (binds_persist_applyOp inv h op)

/-- C9: on every reachable QueryContext the bind counter never decreases
under any further call, a once-stored key keeps its `BindParameter` record
under any further call (keys are never reassigned), and the keys of `binds`
are exactly the multiset of keys across the type buckets. -/
theorem queryContext_state_invariant (ops : List Op) (op : Op) (k : String)
    (bp : BindParameter) :
    (runOps QueryContext.init ops).2.binds_count ≤
      (applyOp (runOps QueryContext.init ops).2 op).2.binds_count ∧
    (dictGet k (runOps QueryContext.init ops).2.binds = some bp →
      dictGet k (applyOp (runOps QueryContext.init ops).2 op).2.binds =
        some bp) ∧
    ((runOps QueryContext.init ops).2.binds.map Prod.fst).Perm
      ((entries (runOps QueryContext.init ops).2).map Prod.snd) := by
  have inv := stateInv_runOps stateInv_init ops
  exact ⟨count_le_applyOp _ op, fun h => binds_persist_applyOp inv h op,
    inv.keys_perm.symm⟩

/-- Witness for C9: after one registration the stored record for `"b0"`
survives a further registration of a different object. -/
theorem queryContext_state_invariant_witness :
    dictGet "b0"
        (runOps QueryContext.init [Op.bind ⟨1, 0, 0⟩ BindConfig.default]).2.binds =
      some (sqlalchemy.bindparam "b0" ⟨1, 0, 0⟩ BindConfig.default) ∧
    dictGet "b0"
        (applyOp (runOps QueryContext.init
          [Op.bind ⟨1, 0, 0⟩ BindConfig.default]).2
          (Op.bind ⟨2, 1, 0⟩ BindConfig.default)).2.binds =
      some (sqlalchemy.bindparam "b0" ⟨1, 0, 0⟩ BindConfig.default) :=
  ⟨by decide,
    (queryContext_state_invariant [Op.bind ⟨1, 0, 0⟩ BindConfig.default]
      (Op.bind ⟨2, 1, 0⟩ BindConfig.default) "b0"
      (sqlalchemy.bindparam "b0" ⟨1, 0, 0⟩ BindConfig.default)).2.1 (by decide)⟩

theorem mintsOf_eq_range' :
    ∀ (ops : List Op) (ctx : QueryContext),
      mintsOf ctx ops =
        (List.range' ctx.binds_count
          ((runOps ctx ops).2.binds_count - ctx.binds_count)).map mkKey
  | [], ctx => by simp [mintsOf, runOps]
  | Op.alias n :: rest, ctx => by
      rw [mintsOf, mintsOf_eq_range' rest (ctx.alias n).2, runOps_cons]
      rfl
  | Op.bind v cfg :: rest, ctx => by
      cases h : keyOf ctx v with
      | some k =>
          rw [mintsOf, runOps_cons]
          simp only [h, Option.isSome_some, if_pos]
          rw [mintsOf_eq_range' rest (ctx.bindparam v cfg).2]
          simp only [applyOp]
          rw [bindparam_hit cfg h]
      | none =>
          rw [mintsOf, runOps_cons]
          simp only [h, Option.isSome_none, Bool.false_eq_true, if_false]
          rw [mintsOf_eq_range' rest (ctx.bindparam v cfg).2]
          simp only [applyOp]
          have hc := count_bindparam_miss cfg h
          have hout : (ctx.bindparam v cfg).1 = mkKey ctx.binds_count := by
            rw [bindparam_miss cfg h]
          have hle := count_le_runOps (ctx.bindparam v cfg).2 rest
          rw [hc] at hle
          obtain ⟨m, hm⟩ := Nat.exists_eq_add_of_le hle
          rw [hout, hc, hm]
          have e1 : ctx.binds_count + 1 + m - (ctx.binds_count + 1) = m := by
            omega
          have e2 : ctx.binds_count + 1 + m - ctx.binds_count = m + 1 := by
            omega
          rw [e1, e2, List.range'_succ]
          simp

/-- C4: the keys returned by cache-miss `bindparam` calls during a lifetime
are, in mint order, exactly `"b0", "b1", "b2", ...` (one per miss, up to the
final counter value); deduplication hits interspersed between misses mint
nothing and neither advance nor skip the numbering. -/
theorem bindparam_keys_minted_in_order (ops : List Op) :
    mintsOf QueryContext.init ops =
      (List.range (runOps QueryContext.init ops).2.binds_count).map mkKey := by
  rw [mintsOf_eq_range' ops QueryContext.init, List.range_eq_range']
  rfl

theorem binds_length_eq_count {ctx : QueryContext} (inv : StateInv ctx) :
    ctx.binds.length = ctx.binds_count := by
  have h := congrArg List.length inv.keys_eq
  simpa using h

theorem get_bindparams_keys {ctx : QueryContext} (inv : StateInv ctx) :
    (ctx.get_bindparams).map BindParameter.key = ctx.binds.map Prod.fst := by
  rw [QueryContext.get_bindparams, List.map_map]
  exact List.map_congr_left fun p hp => inv.binds_key p hp

theorem entries_vals_toFinset_bindparam {ctx : QueryContext}
    (v : Value) (cfg : BindConfig) :
    ((entries (ctx.bindparam v cfg).2).map Prod.fst).toFinset =
      insert v ((entries ctx).map Prod.fst).toFinset := by
  cases h : keyOf ctx v with
  | some k =>
      rw [bindparam_hit cfg h]
      have hv : v ∈ (entries ctx).map Prod.fst :=
        List.mem_map_of_mem Prod.fst (entry_of_keyOf_some h)
      rw [Finset.insert_eq_self.mpr (List.mem_toFinset.mpr hv)]
  | none =>
      have hperm := (entries_bindparam_miss cfg h).map Prod.fst
      rw [List.toFinset_eq_of_perm _ _ hperm]
      simp only [List.map_append, List.map_cons, List.map_nil,
        List.toFinset_append]
      simp only [List.toFinset_cons, List.toFinset_nil, insert_emptyc_eq]
      rw [Finset.insert_eq, Finset.union_comm]

theorem entries_vals_toFinset_runOps :
    ∀ (ops : List Op) (ctx : QueryContext), StateInv ctx →
      ((entries (runOps ctx ops).2).map Prod.fst).toFinset =
        ((entries ctx).map Prod.fst).toFinset ∪ (bindValuesOf ops).toFinset
  | [], ctx, _ => by simp [runOps, bindValuesOf]
  | Op.alias n :: rest, ctx, inv => by
      rw [runOps_cons,
        entries_vals_toFinset_runOps rest (applyOp ctx (Op.alias n)).2
          (stateInv_applyOp inv _)]
      rfl
  | Op.bind v cfg :: rest, ctx, inv => by
      rw [runOps_cons,
        entries_vals_toFinset_runOps rest (applyOp ctx (Op.bind v cfg)).2
          (stateInv_applyOp inv _)]
      simp only [applyOp]
      rw [entries_vals_toFinset_bindparam v cfg]
      show insert v ((entries ctx).map Prod.fst).toFinset ∪
          (bindValuesOf rest).toFinset =
        ((entries ctx).map Prod.fst).toFinset ∪
          (bindValuesOf (Op.bind v cfg :: rest)).toFinset
      rw [bindValuesOf]
      simp [Finset.insert_union, Finset.union_insert]

theorem count_eq_card_distinct {ctx : QueryContext} (inv : StateInv ctx) :
    ctx.binds_count = ((entries ctx).map Prod.fst).toFinset.card := by
  rw [List.toFinset_card_of_nodup inv.vals_nodup]
  have h2 := inv.keys_perm.length_eq
  have h3 := congrArg List.length inv.keys_eq
  simp only [List.length_map, List.length_range] at h2 h3 ⊢
  omega

/-- C6: `get_bindparams` returns the registered `BindParameter` records with
keys `"b0" ... "b(count-1)"` in mint order, each exactly once (the key list
has no duplicates), and its length equals the number of distinct object
references ever registered.  It is read-only by construction: in this
embedding `get_bindparams` is a pure function of the state and returns no
successor state. -/
theorem get_bindparams_spec (ops : List Op) :
    ((runOps QueryContext.init ops).2.get_bindparams).map BindParameter.key =
      (List.range (runOps QueryContext.init ops).2.binds_count).map mkKey ∧
    (((runOps QueryContext.init ops).2.get_bindparams).map
      BindParameter.key).Nodup ∧
    ((runOps QueryContext.init ops).2.get_bindparams).length =
      (bindValuesOf ops).dedup.length := by
  have inv := stateInv_runOps stateInv_init ops
  have hkeys := (get_bindparams_keys inv).trans inv.keys_eq
  refine ⟨hkeys, ?_, ?_⟩
  · rw [hkeys]
    exact (List.nodup_range _).map fun a b hab => mkKey_inj hab
  · rw [QueryContext.get_bindparams, List.length_map,
      binds_length_eq_count inv, count_eq_card_distinct inv,
      entries_vals_toFinset_runOps ops QueryContext.init stateInv_init]
    have hinit : ((entries QueryContext.init).map Prod.fst).toFinset =
        (∅ : Finset Value) := rfl
    rw [hinit, Finset.empty_union, List.card_toFinset]

/-! ## First registration and configuration pass-through -/

theorem runOps_first_reg :
    ∀ (ops : List Op) (ctx : QueryContext), StateInv ctx →
      ∀ (i : Nat) (v : Value) (cfg₁ : BindConfig),
        ops[i]? = some (Op.bind v cfg₁) →
        keyOf ctx v = none →
        (∀ j w c, j < i → ops[j]? = some (Op.bind w c) → w ≠ v) →
        ∃ k, (runOps ctx ops).1[i]? = some k ∧
          dictGet k (runOps ctx ops).2.binds =
            some (sqlalchemy.bindparam k v cfg₁)
  | [], _, _, i, _, _, h, _, _ => by simp at h
  | op :: rest, ctx, inv, 0, v, cfg₁, h, hnone, _ => by
      rw [List.getElem?_cons_zero] at h
      obtain rfl := Option.some.inj h
      rw [runOps_cons]
      simp only [applyOp]
      refine ⟨(ctx.bindparam v cfg₁).1, by simp, ?_⟩
      have hstore : dictGet (ctx.bindparam v cfg₁).1
          (ctx.bindparam v cfg₁).2.binds =
          some (sqlalchemy.bindparam (ctx.bindparam v cfg₁).1 v cfg₁) := by
        rw [bindparam_miss cfg₁ hnone]
        exact dictGet_dictSet_self _ _ _
      exact binds_persist_runOps (stateInv_bindparam inv v cfg₁) hstore rest
  | op :: rest, ctx, inv, i + 1, v, cfg₁, h, hnone, hfirst => by
      rw [List.getElem?_cons_succ] at h
      have hnone' : keyOf (applyOp ctx op).2 v = none := by
        match op with
        | Op.alias n => exact hnone
        | Op.bind w c =>
            have hw : w ≠ v := hfirst 0 w c (Nat.succ_pos i) (by simp)
            simp only [applyOp]
            rw [keyOf_bindparam, if_neg (fun hh : v = w => hw hh.symm)]
            exact hnone
      have hfirst' : ∀ j w c, j < i → rest[j]? = some (Op.bind w c) → w ≠ v :=
        fun j w c hj hjw => hfirst (j + 1) w c (by omega) (by simpa using hjw)
      obtain ⟨k, h1, h2⟩ := runOps_first_reg rest (applyOp ctx op).2
        (stateInv_applyOp inv op) i v cfg₁ h hnone' hfirst'
      exact ⟨k, by simpa [runOps_cons] using h1,
        by simpa [runOps_cons] using h2⟩

/-- C10: when `bindparam` is called again with a value identical to an
already-registered one but with a different configuration bundle, the new
configuration is silently discarded: the call returns the first call's key
and leaves the state unchanged, the stored `BindParameter` for that key still
carries the first registration's configuration, and `get_bindparams` exposes
only that first-call record. -/
theorem bindparam_second_config_discarded (ops : List Op) (i : Nat) (v : Value)
    (cfg₁ cfg₂ : BindConfig) (hi : ops[i]? = some (Op.bind v cfg₁))
    (hfirst : ∀ j w c, j < i → ops[j]? = some (Op.bind w c) → w ≠ v) :
    ∃ k, (runOps QueryContext.init ops).1[i]? = some k ∧
      QueryContext.bindparam (runOps QueryContext.init ops).2 v cfg₂ =
        (k, (runOps QueryContext.init ops).2) ∧
      dictGet k (runOps QueryContext.init ops).2.binds =
        some (sqlalchemy.bindparam k v cfg₁) ∧
      sqlalchemy.bindparam k v cfg₁ ∈
        (runOps QueryContext.init ops).2.get_bindparams := by
  obtain ⟨k, h1, h2⟩ := runOps_first_reg ops QueryContext.init stateInv_init
    i v cfg₁ hi rfl hfirst
  obtain ⟨k2, o1, o2⟩ := runOps_out_key ops QueryContext.init i hi
  obtain rfl : k = k2 := Option.some.inj (h1.symm.trans o1)
  exact ⟨k, h1, bindparam_hit cfg₂ o2, h2,
    List.mem_map_of_mem Prod.snd (dictGet_mem h2)⟩

/-- Witness for C10: register an object with `unique := true`, re-register it
with the default configuration — the stored record keeps the original
configuration. -/
theorem bindparam_second_config_discarded_witness :
    [Op.bind ⟨9, 3, 1⟩
        ⟨none, true, none, none, none, false, false, false⟩][0]? =
      some (Op.bind ⟨9, 3, 1⟩
        ⟨none, true, none, none, none, false, false, false⟩) ∧
    ∃ k, (runOps QueryContext.init
        [Op.bind ⟨9, 3, 1⟩
          ⟨none, true, none, none, none, false, false, false⟩]).1[0]? =
        some k ∧
      QueryContext.bindparam
          (runOps QueryContext.init
            [Op.bind ⟨9, 3, 1⟩
              ⟨none, true, none, none, none, false, false, false⟩]).2
          ⟨9, 3, 1⟩ BindConfig.default =
        (k, (runOps QueryContext.init
          [Op.bind ⟨9, 3, 1⟩
            ⟨none, true, none, none, none, false, false, false⟩]).2) ∧
      dictGet k (runOps QueryContext.init
          [Op.bind ⟨9, 3, 1⟩
            ⟨none, true, none, none, none, false, false, false⟩]).2.binds =
        some (sqlalchemy.bindparam k ⟨9, 3, 1⟩
          ⟨none, true, none, none, none, false, false, false⟩) ∧
      sqlalchemy.bindparam k ⟨9, 3, 1⟩
          ⟨none, true, none, none, none, false, false, false⟩ ∈
        (runOps QueryContext.init
          [Op.bind ⟨9, 3, 1⟩
            ⟨none, true, none, none, none, false, false, false⟩]).2.get_bindparams :=
  ⟨by decide,
    bindparam_second_config_discarded _ 0 ⟨9, 3, 1⟩
      ⟨none, true, none, none, none, false, false, false⟩ BindConfig.default
      (by decide)
      (fun j w c hj _ => absurd hj (Nat.not_lt_zero j))⟩

/-! ## Equivalence with the flat-list reference implementation (§9) -/

theorem runFlat_cons (fctx : FlatContext) (v : Value) (cfg : BindConfig)
    (rest : List (Value × BindConfig)) :
    runFlat fctx ((v, cfg) :: rest) =
      ((fctx.bindparam v cfg).1 :: (runFlat (fctx.bindparam v cfg).2 rest).1,
        (runFlat (fctx.bindparam v cfg).2 rest).2) := rfl

theorem flat_hit {fctx : FlatContext} {v : Value} {k : String}
    (cfg : BindConfig) (h : scanGroup v fctx.binds_values = some k) :
    fctx.bindparam v cfg = (k, fctx) := by
  simp only [FlatContext.bindparam]
  rw [h]

theorem flat_miss {fctx : FlatContext} {v : Value} (cfg : BindConfig)
    (h : scanGroup v fctx.binds_values = none) :
    fctx.bindparam v cfg =
      (mkKey fctx.binds_count,
        { binds_values := fctx.binds_values ++ [(v, mkKey fctx.binds_count)]
          binds_count := fctx.binds_count + 1
          binds :=
            dictSet (mkKey fctx.binds_count)
              (sqlalchemy.bindparam (mkKey fctx.binds_count) v cfg)
              fctx.binds }) := by
  simp only [FlatContext.bindparam]
  rw [h]
  rfl

theorem scanGroup_flat_miss {fctx : FlatContext} {v : Value}
    (cfg : BindConfig) (h : scanGroup v fctx.binds_values = none) (w : Value) :
    scanGroup w (fctx.bindparam v cfg).2.binds_values =
      if w = v then some (fctx.bindparam v cfg).1
      else scanGroup w fctx.binds_values := by
  rw [flat_miss cfg h]
  by_cases hw : w = v
  · subst hw
    rw [if_pos rfl, scanGroup_append_of_none h]
    simp
  · rw [if_neg hw]
    cases hs : scanGroup w fctx.binds_values with
    | none =>
        rw [scanGroup_append_of_none hs]
        simp only [if_neg (show ¬v = w from fun hh => hw hh.symm)]
    | some k2 => rw [scanGroup_append_of_some hs]

theorem runFlat_sim :
    ∀ (regs : List (Value × BindConfig)) (ctx : QueryContext)
      (fctx : FlatContext),
      (∀ w, keyOf ctx w = scanGroup w fctx.binds_values) →
      ctx.binds_count = fctx.binds_count →
      ctx.binds = fctx.binds →
      (runOps ctx (bindTrace regs)).1 = (runFlat fctx regs).1 ∧
      (runOps ctx (bindTrace regs)).2.binds = (runFlat fctx regs).2.binds
  | [], _, _, _, _, hb => ⟨rfl, hb⟩
  | (v, cfg) :: rest, ctx, fctx, hk, hc, hb => by
      have hstep : (ctx.bindparam v cfg).1 = (fctx.bindparam v cfg).1 ∧
          (∀ w, keyOf (ctx.bindparam v cfg).2 w =
            scanGroup w (fctx.bindparam v cfg).2.binds_values) ∧
          (ctx.bindparam v cfg).2.binds_count =
            (fctx.bindparam v cfg).2.binds_count ∧
          (ctx.bindparam v cfg).2.binds = (fctx.bindparam v cfg).2.binds := by
        cases h : keyOf ctx v with
        | some k =>
            have hf : scanGroup v fctx.binds_values = some k := by
              rw [← hk v]
              exact h
            rw [bindparam_hit cfg h, flat_hit cfg hf]
            exact ⟨rfl, hk, hc, hb⟩
        | none =>
            have hf : scanGroup v fctx.binds_values = none := by
              rw [← hk v]
              exact h
            refine ⟨?_, ?_, ?_, ?_⟩
            · rw [bindparam_miss cfg h, flat_miss cfg hf, hc]
            · intro w
              rw [keyOf_bindparam ctx v w cfg, scanGroup_flat_miss cfg hf w]
              by_cases hw : w = v
              · rw [if_pos hw, if_pos hw, bindparam_miss cfg h,
                  flat_miss cfg hf, hc]
              · rw [if_neg hw, if_neg hw]
                exact hk w
            · rw [bindparam_miss cfg h, flat_miss cfg hf, hc]
            · rw [bindparam_miss cfg h, flat_miss cfg hf, hb, hc]
      obtain ⟨ho, hk', hc', hb'⟩ := hstep
      obtain ⟨ih1, ih2⟩ := runFlat_sim rest (ctx.bindparam v cfg).2
        (fctx.bindparam v cfg).2 hk' hc' hb'
      constructor
      · simp only [bindTrace, List.map_cons]
        rw [runOps_cons, runFlat_cons]
        simp only [applyOp]
        rw [ho]
        show _ :: (runOps (ctx.bindparam v cfg).2 (bindTrace rest)).1 = _
        rw [ih1]
      · simp only [bindTrace, List.map_cons]
        rw [runOps_cons, runFlat_cons]
        simp only [applyOp]
        show (runOps (ctx.bindparam v cfg).2 (bindTrace rest)).2.binds = _
        rw [ih2]

/-- C8: the type-bucketed deduplication is observationally equivalent to the
simpler flat-list implementation that scans one ordered list of all
registered `(value, key)` pairs with the same identity comparison: on every
sequence of registrations both return the same keys, call for call, and
export the same `BindParameter` sequence. -/
theorem bucketed_equiv_flat (regs : List (Value × BindConfig)) :
    (runOps QueryContext.init (bindTrace regs)).1 =
      (runFlat FlatContext.init regs).1 ∧
    (runOps QueryContext.init (bindTrace regs)).2.get_bindparams =
      (runFlat FlatContext.init regs).2.get_bindparams := by
  obtain ⟨h1, h2⟩ := runFlat_sim regs QueryContext.init FlatContext.init
    (fun w => rfl) rfl rfl
  exact ⟨h1, by rw [QueryContext.get_bindparams, FlatContext.get_bindparams, h2]⟩
